import Mathlib

/-!
# Verification of the FileFinder concurrent directory walker

Shallow embedding of `src/FileFinder.cpp` and proofs about it.

Strings are modelled as lists of byte values (`List Nat`), matching the
`std::string` byte representation the program works on.  The byte 42 is
the character `*`, the byte 63 is `?`.
-/

namespace FileFinder

/-- Model of C `tolower` (as applied at lines 30-31 of `FileFinder.cpp`) on a
byte: ASCII uppercase letters (65-90) map to lowercase (97-122), every other
byte is unchanged.  Locale-specific behaviour beyond ASCII is not modelled. -/
def tolower (c : Nat) : Nat := if 65 ≤ c ∧ c ≤ 90 then c + 32 else c

/-- Bytes of a Lean string literal; convenience for concrete test vectors. -/
def str (s : String) : List Nat := s.data.map Char.toNat

/-- The trailing loop of `matchWildcard` (lines 48-51): after the name is
exhausted, consume any run of `*` in the remaining pattern and succeed
exactly when the pattern is then exhausted. -/
def skipStars : List Nat → Bool
  | [] => true
  | q :: ps => if q = 42 then skipStars ps else false

/-- Termination measure for the main matcher loop: the length of the
checkpoint name suffix (or of the current name suffix if no checkpoint is
set), never smaller than the current name suffix on reachable states. -/
def mwMeasure (ns : List Nat) (back : Option (List Nat × List Nat)) : Nat :=
  match back with
  | none => ns.length
  | some (_, ms) => max ns.length ms.length


/-- The main loop of `matchWildcard` (lines 27-46), on suffixes.

State: `ns` is the unconsumed suffix of the name (cursor `n`), `ps` the
unconsumed suffix of the pattern (cursor `p`), and `back` is the backtrack
checkpoint: `none` when `star == npos`, and `some (sp, ms)` when a `*` was
seen, where `sp` is the pattern suffix just after that `*` (cursor `star+1`)
and `ms` is the name suffix at the checkpoint (cursor `match`).

Branches, in the source's order:
* advance (lines 28-34): the pattern has a char `q` that is `?` or equal
  case-folded to the current name char (note this fires even when `q` is `*`,
  if the name char is itself `*`);
* star (lines 35-38): the pattern has `*`; remember the checkpoint;
* backtrack (lines 39-42): resume just after the remembered `*`, consuming one
  more name char into it (`n = ++match`); when `match+1` reaches the end of
  the name the loop exits to the trailing-star phase, which the `ms' = []`
  recursive call reproduces via the first equation;
* fail (lines 43-45): no checkpoint.

The `some (sp, [])` case (checkpoint at the very end of the name while the
name cursor is strictly before the end) cannot arise from a top-level call,
because the checkpoint cursor never exceeds the name cursor; it is given the
value `false`. -/
def mwLoop : List Nat → List Nat → Option (List Nat × List Nat) → Bool
  | [], ps, _ => skipStars ps
  | c :: ns', q :: ps', back =>
      if q = 63 ∨ tolower q = tolower c then mwLoop ns' ps' back
      else if q = 42 then mwLoop (c :: ns') ps' (some (ps', c :: ns'))
      else
        match back with
        | some (sp, _m :: ms') => mwLoop ms' sp (some (sp, ms'))
        | some (_, []) => false
        | none => false
  | _c :: _ns', [], back =>
      match back with
      | some (sp, _m :: ms') => mwLoop ms' sp (some (sp, ms'))
      | some (_, []) => false
      | none => false
  termination_by ns ps back => (mwMeasure ns back, ns.length + ps.length)
  decreasing_by
  all_goals
    (try rcases back with _ | ⟨sp, ms⟩) <;>
      (simp only [mwMeasure, List.length_cons, Prod.lex_def]; omega)

/-- `matchWildcard` (lines 23-52): the program's wildcard matcher. -/
def matchWildcard (name pattern : List Nat) : Bool := mwLoop name pattern none

/-- Modelled from the spec (§4.1): anchored case-insensitive glob matching.
`*` (byte 42) matches any run of zero or more characters, `?` (byte 63)
matches exactly one character, any other pattern character matches exactly one
name character equal to it after case folding.  This is the reference
semantics the spec claims `matchWildcard` implements; it is compared with the
embedding of the source in the refinement theorems. -/
def globMatch : List Nat → List Nat → Bool
  | ns, [] => ns.isEmpty
  | ns, q :: ps =>
      if q = 42 then
        globMatch ns ps ||
          (match ns with
           | [] => false
           | _ :: ns' => globMatch ns' (q :: ps))
      else
        match ns with
        | [] => false
        | c :: ns' => if q = 63 ∨ tolower q = tolower c then globMatch ns' ps else false
  termination_by ns ps => (ps.length, ns.length)
  decreasing_by
  · apply Prod.Lex.left; simp
  · apply Prod.Lex.right; simp
  · apply Prod.Lex.left; simp

/-- The name-side and pattern-side characters that the advance branch
(lines 28-34) accepts in lockstep: the pattern char is `?` or equal to the
name char after case folding, pointwise along two lists. -/
def Lockstep (u v : List Nat) : Prop :=
  List.Forall₂ (fun c q => q = 63 ∨ tolower q = tolower c) u v

/-- Conclusion of the soundness direction, indexed by the loop state. -/
def SoundConcl (ns ps : List Nat) (back : Option (List Nat × List Nat)) : Prop :=
  match back with
  | none => globMatch ns ps = true
  | some (sp, ms) => globMatch ns ps = true ∨ globMatch ms (42 :: sp) = true

/-- Hypothesis of the completeness direction, indexed by the loop state: the
state invariant relating the current suffixes to the checkpoint, plus the
glob-semantics fact being tracked. -/
def CompleteHyp (ns ps : List Nat) (back : Option (List Nat × List Nat)) : Prop :=
  match back with
  | none => 42 ∉ ns ∧ globMatch ns ps = true
  | some (sp, ms) =>
      42 ∉ ms ∧ (∃ u v, ms = u ++ ns ∧ sp = v ++ ps ∧ Lockstep u v) ∧
        globMatch ms (42 :: sp) = true

/-- Whitespace as recognised by `std::stoi` when skipping a leading run:
space (32) and the control characters 9-13. -/
def isSpace (c : Nat) : Bool := c = 32 || (9 ≤ c && c ≤ 13)

/-- Decimal digit byte. -/
def isDigit (c : Nat) : Bool := 48 ≤ c && c ≤ 57

/-- Numeric value of a run of digit bytes. -/
def digitsToNat (ds : List Nat) : Nat := ds.foldl (fun a c => a * 10 + (c - 48)) 0

/-- Model of `std::stoi` as called at line 124: skip leading whitespace, an
optional sign, then a nonempty run of decimal digits (anything after the
digits is ignored).  `none` models an exception escaping `std::stoi`:
`std::invalid_argument` when no digit is found, and `std::out_of_range` when
the converted value does not fit in `int` — 32 bits, [-2147483648,
2147483647], on the platforms this program targets.  `main` catches
neither. -/
def stoi (s : List Nat) : Option Int :=
  let fit : Int → Option Int := fun v =>
    if v < -2147483648 ∨ 2147483647 < v then none else some v
  match s.dropWhile isSpace with
  | 45 :: r =>
      match r.takeWhile isDigit with
      | [] => none
      | ds => fit (-(digitsToNat ds : Int))
  | 43 :: r =>
      match r.takeWhile isDigit with
      | [] => none
      | ds => fit (digitsToNat ds : Int)
  | r =>
      match r.takeWhile isDigit with
      | [] => none
      | ds => fit (digitsToNat ds : Int)

/-- Outcome of the argument handling in `main` (lines 114-124). -/
inductive CliOutcome where
  | usage          -- argc < 3: print the usage text and return 1
  | stoiException  -- std::stoi threw; main has no handler, the process terminates
  | run (threads : Int)  -- the walk runs with this worker count
  deriving DecidableEq

/-- Model of the argument handling in `main` (lines 114-124): fewer than two
real arguments takes the usage path; otherwise, if a third argument exists it
goes through `std::stoi` — an unparsable string propagates the exception out
of `main`, which has no try block — and the result is clamped below by 1 with
`std::max(1, ...)`; with no third argument the hardware concurrency, clamped
below by 1, is used. -/
def parseCli (argv : List (List Nat)) (hw : Nat) : CliOutcome :=
  if argv.length < 3 then .usage
  else
    match argv.get? 3 with
    | some a3 =>
        match stoi a3 with
        | none => .stoiException
        | some v => .run (max 1 v)
    | none => .run (max 1 (hw : Int))

/-- The classification-relevant observations about one directory entry, as
made by the worker at lines 168-172.  Per the `std::filesystem` semantics,
`entry.is_directory()` and `entry.is_regular_file()` follow symbolic links
(they inspect `status()`, i.e. the resolved target), while `entry.is_symlink()`
inspects `symlink_status()` (the entry itself). -/
structure DirEntry where
  targetIsDir : Bool      -- entry.is_directory(): the resolved target is a directory
  targetIsRegular : Bool  -- entry.is_regular_file(): the resolved target is a regular file
  isSymlink : Bool        -- entry.is_symlink(): the entry itself is a symbolic link
  name : List Nat         -- entry.path().filename()
  deriving DecidableEq

/-- What the worker does with one entry. -/
inductive EntryAction where
  | enqueueDir  -- lines 168-171: fetch_add on pending_dirs, then push a new task
  | matchLeaf   -- lines 172-183: match the filename against the pattern
  | skipEntry   -- neither branch applies (sockets, fifos, ...)
  deriving DecidableEq

/-- The worker's per-entry branch (lines 168-172), in the source's order:
`entry.is_directory()` first, then `entry.is_regular_file() || entry.is_symlink()`. -/
def classifyEntry (e : DirEntry) : EntryAction :=
  if e.targetIsDir then .enqueueDir
  else if e.targetIsRegular || e.isSymlink then .matchLeaf
  else .skipEntry

/-- A directory tree: a node is one directory, and its children are the
subdirectory-classified entries that a full enumeration of it discovers.
Leaf entries (files, symbolic links) are not represented: they never touch
the queue, the pending counter or the stop flag, which is the shared state
the walk claims are about. -/
inductive Tree where
  | node : List Tree → Tree

/-- Subdirectory children of a directory. -/
def Tree.children : Tree → List Tree
  | node cs => cs

/-- The wait predicate of `DirQueue::pop_or_wait` (line 92): queue nonempty,
or stop flag set, or pending counter zero. -/
def waitPred (q : List Tree) (pending : Int) (stop : Bool) : Bool :=
  !q.isEmpty || stop || decide (pending = 0)

/-- What `pop_or_wait` returns once the wait predicate holds (lines 93-98):
the front task exactly when the queue is nonempty.  The stop flag and the
pending counter are not consulted in this decision — they are arguments here
only to mirror the function's signature (line 90). -/
def popDecision (q : List Tree) (_pending : Int) (_stop : Bool) :
    Option (Tree × List Tree) :=
  match q with
  | [] => none
  | t :: rest => some (t, rest)

/-- Status of one worker, at the granularity of the individual shared-memory
operations in `worker` (lines 151-206) and `DirQueue` (lines 82-109).  Each
mutex-protected region that cannot be interrupted is one step; the lock-free
atomic operations (lines 169, 196, the load at 162) and `notify_all` (line
101, called without the lock) are their own steps. -/
inductive WStatus where
  | idle        -- about to lock the mutex and evaluate the wait predicate (line 92)
  | preblock    -- evaluated the predicate false; still holds the mutex, about to suspend
  | waiting     -- blocked on the condition variable; only a notification can move it
  | gotNone     -- pop_or_wait returned false; about to load pending_dirs (line 162)
  | expanding (todo : List Tree)  -- holds a dequeued task; todo = subdirectory children not yet handled
  | midPush (t : Tree) (todo : List Tree)  -- did the fetch_add for child t (line 169) but not yet the push (line 170)
  | completing  -- left the entry loop (normally or via a catch); about to fetch_sub (line 196)
  | notifying   -- fetch_sub returned 1, so remaining == 0; about to notify_all (line 198)
  | exited      -- left the while loop (line 162 break)

/-- The shared state of the walk, with ghost counters: `pushes` counts tasks
ever pushed (the seed included), `takes` counts successful dequeues, `decs`
counts the complete-one decrements at line 196. -/
structure WalkState where
  queue : List Tree
  pending : Int
  stop : Bool
  workers : List WStatus
  pushes : Nat
  takes : Nat
  decs : Nat

/-- No worker holds the queue mutex.  A worker in `preblock` holds it (the
predicate evaluation inside `cv.wait` runs under the lock, which is released
only when the wait suspends), so it excludes the mutex-taking steps — push
and all of pop_or_wait — but not the lock-free atomics or `notify_all`. -/
def MutexFree (s : WalkState) : Prop := WStatus.preblock ∉ s.workers

/-- Effect of `notify_all` (line 198, via `DirQueue::notify_all`, line 101,
which does not take the lock): wakes exactly the workers blocked on the
condition variable at that moment.  A worker in its predicate-evaluation
window (`preblock`) is not yet a waiter and is not woken — C++ condition
variables wake only threads already blocked, and spurious wakeups are
permitted but never guaranteed. -/
def wakeAll (l : List WStatus) : List WStatus :=
  l.map fun w =>
    match w with
    | WStatus.waiting => WStatus.idle
    | w => w

/-- One interleaving step of the walk: some worker performs its next
shared-memory action.  Constructors follow `worker` (lines 158-200) and
`DirQueue` (lines 84-103). -/
inductive Step : WalkState → WalkState → Prop where
  /-- pop_or_wait with a nonempty queue (lines 92-97): one locked section —
  the predicate holds because the queue is nonempty, the front task is
  popped, true is returned — after which the worker enumerates the popped
  directory; its subdirectory children become the todo list. -/
  | take (s : WalkState) (i : Nat) (t : Tree) (rest : List Tree) :
      s.workers.get? i = some .idle → MutexFree s → s.queue = t :: rest →
      Step s { s with queue := rest,
                      workers := s.workers.set i (.expanding t.children),
                      takes := s.takes + 1 }
  /-- pop_or_wait when the predicate holds with an empty queue — pending is
  zero or stop is set — so false is returned (lines 92-98). -/
  | popEmpty (s : WalkState) (i : Nat) :
      s.workers.get? i = some .idle → MutexFree s → s.queue = [] →
      (s.stop = true ∨ s.pending = 0) →
      Step s { s with workers := s.workers.set i .gotNone }
  /-- the wait predicate evaluates to false (queue empty, stop clear,
  pending nonzero): the worker will block; it still holds the mutex until
  the wait suspends it. -/
  | predFalse (s : WalkState) (i : Nat) :
      s.workers.get? i = some .idle → MutexFree s → s.queue = [] →
      s.stop = false → s.pending ≠ 0 →
      Step s { s with workers := s.workers.set i .preblock }
  /-- the wait releases the mutex and the worker becomes a waiter.  Any
  notification delivered during its predicate-evaluation window was missed. -/
  | block (s : WalkState) (i : Nat) :
      s.workers.get? i = some .preblock →
      Step s { s with workers := s.workers.set i .waiting }
  /-- line 162: pop_or_wait returned false and pending_dirs loads 0 — break. -/
  | exitLoop (s : WalkState) (i : Nat) :
      s.workers.get? i = some .gotNone → s.pending = 0 →
      Step s { s with workers := s.workers.set i .exited }
  /-- line 163: pop_or_wait returned false but pending_dirs is nonzero — continue. -/
  | reloop (s : WalkState) (i : Nat) :
      s.workers.get? i = some .gotNone → s.pending ≠ 0 →
      Step s { s with workers := s.workers.set i .idle }
  /-- line 169: fetch_add for a discovered subdirectory; no lock is held. -/
  | inc (s : WalkState) (i : Nat) (t : Tree) (todo : List Tree) :
      s.workers.get? i = some (.expanding (t :: todo)) →
      Step s { s with pending := s.pending + 1,
                      workers := s.workers.set i (.midPush t todo) }
  /-- line 170 with lines 84-88: push under the lock, and the notify_one
  (still under the lock) wakes one blocked waiter, worker j. -/
  | pushWake (s : WalkState) (i j : Nat) (t : Tree) (todo : List Tree) :
      s.workers.get? i = some (.midPush t todo) → MutexFree s →
      s.workers.get? j = some .waiting →
      Step s { s with queue := s.queue ++ [t],
                      pushes := s.pushes + 1,
                      workers := (s.workers.set i (.expanding todo)).set j .idle }
  /-- line 170 when no worker is blocked: notify_one wakes nobody. -/
  | pushQuiet (s : WalkState) (i : Nat) (t : Tree) (todo : List Tree) :
      s.workers.get? i = some (.midPush t todo) → MutexFree s →
      WStatus.waiting ∉ s.workers →
      Step s { s with queue := s.queue ++ [t],
                      pushes := s.pushes + 1,
                      workers := s.workers.set i (.expanding todo) }
  /-- the entry loop ends: normally (todo = []) or because enumeration threw
  at any point — the catch clauses at lines 186-194 catch every exception;
  the remaining children are skipped, and control reaches line 196 in every
  case. -/
  | finish (s : WalkState) (i : Nat) (todo : List Tree) :
      s.workers.get? i = some (.expanding todo) →
      Step s { s with workers := s.workers.set i .completing }
  /-- line 196: fetch_sub, no lock held; the value it returns decides
  whether line 198 runs. -/
  | dropPending (s : WalkState) (i : Nat) :
      s.workers.get? i = some .completing →
      Step s { s with pending := s.pending - 1,
                      decs := s.decs + 1,
                      workers := s.workers.set i
                        (if s.pending - 1 = 0 then .notifying else .idle) }
  /-- line 198: notify_all, no lock held: wakes exactly the current waiters,
  then the worker loops back to pop_or_wait. -/
  | notifyAll (s : WalkState) (i : Nat) :
      s.workers.get? i = some .notifying →
      Step s { s with workers := wakeAll (s.workers.set i .idle) }

/-- The state right before the worker threads start: the seed pushed and
counted (lines 148-149) and n workers about to enter their loops (line 211).
No worker exists between lines 148 and 149, so initialisation is atomic from
every observer's point of view. -/
def initState (n : Nat) (root : Tree) : WalkState :=
  { queue := [root], pending := 1, stop := false,
    workers := List.replicate n .idle, pushes := 1, takes := 0, decs := 0 }

/-- Reachability along interleavings of worker steps. -/
def Reachable (n : Nat) (root : Tree) (s : WalkState) : Prop :=
  Relation.ReflTransGen Step (initState n root) s

/-- Pending-count units a worker accounts for: one for its own dequeued task
until the fetch_sub at line 196, plus one more while a child's fetch_add
(line 169) has happened but the corresponding push (line 170) has not. -/
def taskDebt : WStatus → Nat
  | .expanding _ => 1
  | .midPush _ _ => 2
  | .completing => 1
  | _ => 0

/-- Tasks a worker has dequeued and not yet decremented for. -/
def holdCount : WStatus → Nat
  | .expanding _ => 1
  | .midPush _ _ => 1
  | .completing => 1
  | _ => 0

/-- Total pending-count units owed by the workers. -/
def debtSum (s : WalkState) : Nat := (s.workers.map taskDebt).sum

/-- Total dequeued-but-not-yet-decremented tasks across the workers. -/
def holdSum (s : WalkState) : Nat := (s.workers.map holdCount).sum

/-- The inductive invariant of the walk. -/
def WalkInv (s : WalkState) : Prop :=
  s.pending = (s.queue.length : Int) + (debtSum s : Int) ∧
  s.pushes = s.takes + s.queue.length ∧
  s.takes = s.decs + holdSum s ∧
  s.stop = false ∧
  ((s.workers ≠ [] ∧ ∀ w ∈ s.workers, w = .exited) → s.pending = 0)

/-- Root of the C1 counterexample run: one directory with one subdirectory. -/
def c1Root : Tree := .node [.node []]

/-- C1 trace, after the single worker dequeues the seed. -/
def c1s1 : WalkState :=
  { queue := [], pending := 1, stop := false,
    workers := [.expanding [Tree.node []]], pushes := 1, takes := 1, decs := 0 }

/-- C1 trace, after the worker's fetch_add for the child (line 169) but
before the push (line 170). -/
def c1s2 : WalkState :=
  { queue := [], pending := 2, stop := false,
    workers := [.midPush (Tree.node []) []], pushes := 1, takes := 1, decs := 0 }

/-- Root of the C3/C6 deadlock run: a single empty directory. -/
def c3Root : Tree := .node []

/-- Deadlock trace: worker 0 has dequeued the seed (an empty directory). -/
def c3s1 : WalkState :=
  { queue := [], pending := 1, stop := false,
    workers := [.expanding [], .idle], pushes := 1, takes := 1, decs := 0 }

/-- Deadlock trace: worker 1 evaluated the wait predicate false (queue
empty, pending 1) and still holds the mutex on its way into the wait. -/
def c3s2 : WalkState :=
  { queue := [], pending := 1, stop := false,
    workers := [.expanding [], .preblock], pushes := 1, takes := 1, decs := 0 }

/-- Deadlock trace: worker 0 finished enumerating (no children). -/
def c3s3 : WalkState :=
  { queue := [], pending := 1, stop := false,
    workers := [.completing, .preblock], pushes := 1, takes := 1, decs := 0 }

/-- Deadlock trace: worker 0's fetch_sub (line 196, lock-free) ran while
worker 1 still holds the mutex; pending is now 0 and worker 0 will notify. -/
def c3s4 : WalkState :=
  { queue := [], pending := 0, stop := false,
    workers := [.notifying, .preblock], pushes := 1, takes := 1, decs := 1 }

/-- Deadlock trace: worker 0's notify_all ran; worker 1 was not yet a waiter
(it is still in its predicate window), so nobody was woken. -/
def c3s5 : WalkState :=
  { queue := [], pending := 0, stop := false,
    workers := [.idle, .preblock], pushes := 1, takes := 1, decs := 1 }

/-- Deadlock trace: worker 1's wait now suspends it — the only notify_all of
the run has already happened. -/
def c3s6 : WalkState :=
  { queue := [], pending := 0, stop := false,
    workers := [.idle, .waiting], pushes := 1, takes := 1, decs := 1 }

/-- Deadlock trace: worker 0 re-evaluated the predicate (pending 0). -/
def c3s7 : WalkState :=
  { queue := [], pending := 0, stop := false,
    workers := [.gotNone, .waiting], pushes := 1, takes := 1, decs := 1 }

/-- Deadlock trace, final state: worker 0 exited; worker 1 is blocked on the
condition variable with no step left that could ever wake it. -/
def c3s8 : WalkState :=
  { queue := [], pending := 0, stop := false,
    workers := [.exited, .waiting], pushes := 1, takes := 1, decs := 1 }

-- Theorems from here on.

theorem tolower_eq_42 {c : Nat} : tolower c = 42 ↔ c = 42 := by
  unfold tolower
  split <;> omega

theorem globMatch_nil (ns : List Nat) : globMatch ns [] = ns.isEmpty := by
  rw [globMatch.eq_def]

theorem globMatch_cons (ns : List Nat) (q : Nat) (ps : List Nat) :
    globMatch ns (q :: ps) =
      if q = 42 then
        (globMatch ns ps ||
          match ns with
          | [] => false
          | _ :: ns' => globMatch ns' (q :: ps))
      else
        match ns with
        | [] => false
        | c :: ns' => if q = 63 ∨ tolower q = tolower c then globMatch ns' ps else false := by
  rw [globMatch.eq_def]

theorem globMatch_star_nil (ps : List Nat) : globMatch [] (42 :: ps) = globMatch [] ps := by
  rw [globMatch_cons]
  simp

theorem globMatch_star_cons (c : Nat) (ns ps : List Nat) :
    globMatch (c :: ns) (42 :: ps) = (globMatch (c :: ns) ps || globMatch ns (42 :: ps)) := by
  rw [globMatch_cons]
  simp

theorem globMatch_lit_nil (q : Nat) (ps : List Nat) (h : q ≠ 42) :
    globMatch [] (q :: ps) = false := by
  rw [globMatch_cons]
  simp [h]

theorem globMatch_lit_cons (q c : Nat) (ns ps : List Nat) (h : q ≠ 42) :
    globMatch (c :: ns) (q :: ps) =
      if q = 63 ∨ tolower q = tolower c then globMatch ns ps else false := by
  rw [globMatch_cons]
  simp [h]

theorem globMatch_nil_eq_skipStars (ps : List Nat) : globMatch [] ps = skipStars ps := by
  induction ps with
  | nil => simp [globMatch_nil, skipStars]
  | cons q ps ih =>
    by_cases h : q = 42
    · subst h
      rw [globMatch_star_nil, ih, skipStars]
      simp
    · rw [globMatch_lit_nil _ _ h, skipStars]
      simp [h]

theorem globMatch_star_intro {t qs : List Nat} (h : globMatch t qs = true) :
    globMatch t (42 :: qs) = true := by
  cases t with
  | nil => rw [globMatch_star_nil]; exact h
  | cons c t => rw [globMatch_star_cons]; simp [h]

theorem globMatch_star_cons_tail {m : Nat} {ms sp : List Nat}
    (h : globMatch ms sp = true ∨ globMatch ms (42 :: sp) = true) :
    globMatch (m :: ms) (42 :: sp) = true := by
  rw [globMatch_star_cons]
  rcases h with h | h
  · simp [globMatch_star_intro h]
  · simp [h]

theorem globMatch_advance {c q : Nat} {ns ps : List Nat}
    (hq : q = 63 ∨ tolower q = tolower c) (h : globMatch ns ps = true) :
    globMatch (c :: ns) (q :: ps) = true := by
  by_cases h42 : q = 42
  · subst h42
    exact globMatch_star_cons_tail (Or.inr (globMatch_star_intro h))
  · rw [globMatch_lit_cons _ _ _ _ h42, if_pos hq]
    exact h

theorem globMatch_star_iff {X qs : List Nat} :
    globMatch X (42 :: qs) = true ↔ ∃ t, t <:+ X ∧ globMatch t qs = true := by
  induction X with
  | nil =>
    rw [globMatch_star_nil]
    constructor
    · intro h
      exact ⟨[], List.suffix_refl [], h⟩
    · rintro ⟨t, ht, h⟩
      have ht' : t = [] := List.suffix_nil.mp ht
      subst ht'
      exact h
  | cons x X ih =>
    rw [globMatch_star_cons]
    constructor
    · intro h
      rcases Bool.or_eq_true_iff.mp h with h | h
      · exact ⟨x :: X, List.suffix_refl _, h⟩
      · obtain ⟨t, ht, hg⟩ := ih.mp h
        exact ⟨t, ht.trans (List.suffix_cons x X), hg⟩
    · rintro ⟨t, ht, hg⟩
      rcases List.suffix_cons_iff.mp ht with rfl | ht'
      · simp [hg]
      · simp [ih.mpr ⟨t, ht', hg⟩]

theorem Lockstep.no_star {u v : List Nat} (h : Lockstep u v) (hu : 42 ∉ u) : 42 ∉ v := by
  induction h with
  | nil => simp
  | @cons a b l₁ l₂ hab hrest ih =>
    simp only [List.mem_cons, not_or] at hu ⊢
    refine ⟨?_, ih hu.2⟩
    intro hb
    subst hb
    rcases hab with hab | hab
    · omega
    · exact hu.1 (tolower_eq_42.mp hab.symm).symm

theorem Lockstep.append_single {u v : List Nat} {c q : Nat} (h : Lockstep u v)
    (hcq : q = 63 ∨ tolower q = tolower c) : Lockstep (u ++ [c]) (v ++ [q]) := by
  induction h with
  | nil => exact List.Forall₂.cons hcq List.Forall₂.nil
  | cons hab hrest ih => exact List.Forall₂.cons hab ih

theorem globMatch_split {v X qs : List Nat} (hv : 42 ∉ v)
    (h : globMatch X (v ++ qs) = true) :
    ∃ u t, X = u ++ t ∧ Lockstep u v ∧ globMatch t qs = true := by
  induction v generalizing X with
  | nil => exact ⟨[], X, rfl, List.Forall₂.nil, by simpa using h⟩
  | cons q v ih =>
    simp only [List.mem_cons, not_or] at hv
    have hq42 : q ≠ 42 := fun hq => hv.1 hq.symm
    cases X with
    | nil =>
      rw [List.cons_append, globMatch_lit_nil _ _ hq42] at h
      exact absurd h (by simp)
    | cons c X' =>
      rw [List.cons_append, globMatch_lit_cons _ _ _ _ hq42] at h
      by_cases hcq : q = 63 ∨ tolower q = tolower c
      · rw [if_pos hcq] at h
        obtain ⟨u', t, hX, hls, hg⟩ := ih hv.2 h
        exact ⟨c :: u', t, by rw [hX, List.cons_append], List.Forall₂.cons hcq hls, hg⟩
      · rw [if_neg hcq] at h
        exact absurd h (by simp)

theorem suffix_of_suffix_of_length_le {α : Type} {l l₁ l₂ : List α}
    (h₁ : l₁ <:+ l) (h₂ : l₂ <:+ l) (h : l₁.length ≤ l₂.length) : l₁ <:+ l₂ := by
  have hl1 := h₁.length_le
  have hl2 := h₂.length_le
  have e1 : l₁ = List.drop (l.length - l₁.length) l := List.suffix_iff_eq_drop.mp h₁
  have e2 : l₂ = List.drop (l.length - l₂.length) l := List.suffix_iff_eq_drop.mp h₂
  rw [List.suffix_iff_eq_drop]
  calc l₁ = List.drop (l.length - l₁.length) l := e1
    _ = List.drop ((l.length - l₂.length) + (l₂.length - l₁.length)) l := by
        congr 1
        omega
    _ = List.drop (l₂.length - l₁.length) (List.drop (l.length - l₂.length) l) := by
        rw [List.drop_drop]
    _ = List.drop (l₂.length - l₁.length) l₂ := by rw [← e2]

theorem mwLoop_nil (ps : List Nat) (back : Option (List Nat × List Nat)) :
    mwLoop [] ps back = skipStars ps := by
  rw [mwLoop.eq_def]

theorem mwLoop_cons_cons (c : Nat) (ns' : List Nat) (q : Nat) (ps' : List Nat)
    (back : Option (List Nat × List Nat)) :
    mwLoop (c :: ns') (q :: ps') back =
      if q = 63 ∨ tolower q = tolower c then mwLoop ns' ps' back
      else if q = 42 then mwLoop (c :: ns') ps' (some (ps', c :: ns'))
      else
        match back with
        | some (sp, _m :: ms') => mwLoop ms' sp (some (sp, ms'))
        | some (_, []) => false
        | none => false := by
  rw [mwLoop.eq_def]

theorem mwLoop_cons_nilp (c : Nat) (ns' : List Nat)
    (back : Option (List Nat × List Nat)) :
    mwLoop (c :: ns') [] back =
      match back with
      | some (sp, _m :: ms') => mwLoop ms' sp (some (sp, ms'))
      | some (_, []) => false
      | none => false := by
  rw [mwLoop.eq_def]

theorem mwLoop_sound : ∀ ns ps back, mwLoop ns ps back = true → SoundConcl ns ps back := by
  intro ns ps back
  induction ns, ps, back using mwLoop.induct with
  | case1 ps back =>
    intro h
    rw [mwLoop_nil] at h
    have hg : globMatch [] ps = true := by rw [globMatch_nil_eq_skipStars]; exact h
    cases back with
    | none => exact hg
    | some p =>
      obtain ⟨sp, ms⟩ := p
      exact Or.inl hg
  | case2 c ns' q ps' back hq ih =>
    intro h
    rw [mwLoop_cons_cons, if_pos hq] at h
    have hs := ih h
    cases back with
    | none => exact globMatch_advance hq hs
    | some p =>
      obtain ⟨sp, ms⟩ := p
      rcases hs with hs | hs
      · exact Or.inl (globMatch_advance hq hs)
      · exact Or.inr hs
  | case3 c ns' ps' back hneg ih =>
    intro h
    rw [mwLoop_cons_cons, if_neg hneg, if_pos rfl] at h
    have hs := ih h
    have key : globMatch (c :: ns') (42 :: ps') = true := by
      rcases hs with hs | hs
      · rw [globMatch_star_cons]
        simp [hs]
      · exact hs
    cases back with
    | none => exact key
    | some p =>
      obtain ⟨sp, ms⟩ := p
      exact Or.inl key
  | case4 c ns' q ps' hneg hq42 sp _m ms' ih =>
    intro h
    rw [mwLoop_cons_cons, if_neg hneg, if_neg hq42] at h
    have h' : mwLoop ms' sp (some (sp, ms')) = true := h
    have hs : globMatch ms' sp = true ∨ globMatch ms' (42 :: sp) = true := ih h'
    exact Or.inr (globMatch_star_cons_tail hs)
  | case5 c ns' q ps' hneg hq42 fst =>
    intro h
    rw [mwLoop_cons_cons, if_neg hneg, if_neg hq42] at h
    have h' : false = true := h
    exact absurd h' (by simp)
  | case6 c ns' q ps' hneg hq42 =>
    intro h
    rw [mwLoop_cons_cons, if_neg hneg, if_neg hq42] at h
    have h' : false = true := h
    exact absurd h' (by simp)
  | case7 _c _ns' sp _m ms' ih =>
    intro h
    rw [mwLoop_cons_nilp] at h
    have h' : mwLoop ms' sp (some (sp, ms')) = true := h
    have hs : globMatch ms' sp = true ∨ globMatch ms' (42 :: sp) = true := ih h'
    exact Or.inr (globMatch_star_cons_tail hs)
  | case8 _c _ns' fst =>
    intro h
    rw [mwLoop_cons_nilp] at h
    have h' : false = true := h
    exact absurd h' (by simp)
  | case9 _c _ns' =>
    intro h
    rw [mwLoop_cons_nilp] at h
    have h' : false = true := h
    exact absurd h' (by simp)

theorem mwLoop_complete : ∀ ns ps back, CompleteHyp ns ps back → mwLoop ns ps back = true := by
  intro ns ps back
  induction ns, ps, back using mwLoop.induct with
  | case1 ps back =>
    intro hyp
    rw [mwLoop_nil]
    cases back with
    | none =>
      obtain ⟨-, hg⟩ := hyp
      rwa [globMatch_nil_eq_skipStars] at hg
    | some p =>
      obtain ⟨sp, ms⟩ := p
      obtain ⟨h42, ⟨u, v, hms, hsp, hls⟩, hg⟩ := hyp
      rw [List.append_nil] at hms
      subst hms
      obtain ⟨t, hts, htg⟩ := globMatch_star_iff.mp hg
      rw [hsp] at htg
      have hv42 : 42 ∉ v := hls.no_star h42
      obtain ⟨u₁, t₁, ht, hls₁, htg₁⟩ := globMatch_split hv42 htg
      have h1 := hls.length_eq
      have h2 := hls₁.length_eq
      have h3 := hts.length_le
      have h4 : t.length = u₁.length + t₁.length := by rw [ht, List.length_append]
      have ht₁ : t₁ = [] := by
        have : t₁.length = 0 := by omega
        exact List.length_eq_zero.mp this
      subst ht₁
      rwa [globMatch_nil_eq_skipStars] at htg₁
  | case2 c ns' q ps' back hq ih =>
    intro hyp
    rw [mwLoop_cons_cons, if_pos hq]
    apply ih
    cases back with
    | none =>
      obtain ⟨h42, hg⟩ := hyp
      simp only [List.mem_cons, not_or] at h42
      have hc42 : c ≠ 42 := fun h => h42.1 h.symm
      have hq42 : q ≠ 42 := by
        intro hqe
        subst hqe
        rcases hq with hq | hq
        · omega
        · have ht42 : tolower (42 : Nat) = 42 := by norm_num [tolower]
          rw [ht42] at hq
          exact hc42 (tolower_eq_42.mp hq.symm)
      rw [globMatch_lit_cons _ _ _ _ hq42, if_pos hq] at hg
      exact ⟨h42.2, hg⟩
    | some p =>
      obtain ⟨sp, ms⟩ := p
      obtain ⟨h42, ⟨u, v, hms, hsp, hls⟩, hg⟩ := hyp
      refine ⟨h42, ⟨u ++ [c], v ++ [q], ?_, ?_, hls.append_single hq⟩, hg⟩
      · rw [hms, List.append_cons]
      · rw [hsp, List.append_cons]
  | case3 c ns' ps' back hneg ih =>
    intro hyp
    rw [mwLoop_cons_cons, if_neg hneg, if_pos rfl]
    apply ih
    cases back with
    | none =>
      obtain ⟨h42, hg⟩ := hyp
      exact ⟨h42, ⟨[], [], rfl, rfl, List.Forall₂.nil⟩, hg⟩
    | some p =>
      obtain ⟨sp, ms⟩ := p
      obtain ⟨h42, ⟨u, v, hms, hsp, hls⟩, hg⟩ := hyp
      have hsub : (c :: ns') <:+ ms := ⟨u, hms.symm⟩
      have h42' : 42 ∉ (c :: ns') := by
        intro hmem
        exact h42 (by rw [hms]; exact List.mem_append_right u hmem)
      have hu42 : 42 ∉ u := by
        intro hmem
        exact h42 (by rw [hms]; exact List.mem_append_left _ hmem)
      have hv42 : 42 ∉ v := hls.no_star hu42
      obtain ⟨t, hts, htg⟩ := globMatch_star_iff.mp hg
      rw [hsp] at htg
      obtain ⟨u₁, t₁, ht, hls₁, htg₁⟩ := globMatch_split hv42 htg
      obtain ⟨t₂, ht₂, ht₂g⟩ := globMatch_star_iff.mp htg₁
      have ht₁s : t₁ <:+ t := ⟨u₁, ht.symm⟩
      have ht₂ms : t₂ <:+ ms := (ht₂.trans ht₁s).trans hts
      have hlen : t₂.length ≤ (c :: ns').length := by
        have h1 := hls.length_eq
        have h2 := hls₁.length_eq
        have h3 := hts.length_le
        have h4 : t.length = u₁.length + t₁.length := by rw [ht, List.length_append]
        have h5 := ht₂.length_le
        have h6 : ms.length = u.length + (c :: ns').length := by
          rw [hms, List.length_append]
        omega
      have ht₂ns : t₂ <:+ (c :: ns') := suffix_of_suffix_of_length_le ht₂ms hsub hlen
      exact ⟨h42', ⟨[], [], rfl, rfl, List.Forall₂.nil⟩,
        globMatch_star_iff.mpr ⟨t₂, ht₂ns, ht₂g⟩⟩
  | case4 c ns' q ps' hneg hq42 sp _m ms' ih =>
    intro hyp
    rw [mwLoop_cons_cons, if_neg hneg, if_neg hq42]
    show mwLoop ms' sp (some (sp, ms')) = true
    apply ih
    obtain ⟨h42, ⟨u, v, hms, hsp, hls⟩, hg⟩ := hyp
    have h42' : 42 ∉ ms' := by
      simp only [List.mem_cons, not_or] at h42
      exact h42.2
    refine ⟨h42', ⟨[], [], rfl, rfl, List.Forall₂.nil⟩, ?_⟩
    rw [globMatch_star_cons] at hg
    rcases Bool.or_eq_true_iff.mp hg with h1 | h1
    · exfalso
      have hu42 : 42 ∉ u := by
        intro hmem
        exact h42 (by rw [hms]; exact List.mem_append_left _ hmem)
      have hv42 : 42 ∉ v := hls.no_star hu42
      rw [hsp] at h1
      obtain ⟨u₁, t₁, ht, hls₁, htg₁⟩ := globMatch_split hv42 h1
      have hlen : u.length = u₁.length := by rw [hls.length_eq, hls₁.length_eq]
      obtain ⟨hu, htt⟩ := List.append_inj (hms.symm.trans ht) hlen
      rw [← htt] at htg₁
      rw [globMatch_lit_cons _ _ _ _ hq42, if_neg hneg] at htg₁
      exact absurd htg₁ (by simp)
    · exact h1
  | case5 c ns' q ps' hneg hq42 fst =>
    intro hyp
    obtain ⟨h42, ⟨u, v, hms, hsp, hls⟩, hg⟩ := hyp
    simp at hms
  | case6 c ns' q ps' hneg hq42 =>
    intro hyp
    obtain ⟨h42, hg⟩ := hyp
    rw [globMatch_lit_cons _ _ _ _ hq42, if_neg hneg] at hg
    exact absurd hg (by simp)
  | case7 _c _ns' sp _m ms' ih =>
    intro hyp
    rw [mwLoop_cons_nilp]
    show mwLoop ms' sp (some (sp, ms')) = true
    apply ih
    obtain ⟨h42, ⟨u, v, hms, hsp, hls⟩, hg⟩ := hyp
    have h42' : 42 ∉ ms' := by
      simp only [List.mem_cons, not_or] at h42
      exact h42.2
    refine ⟨h42', ⟨[], [], rfl, rfl, List.Forall₂.nil⟩, ?_⟩
    rw [globMatch_star_cons] at hg
    rcases Bool.or_eq_true_iff.mp hg with h1 | h1
    · exfalso
      have hu42 : 42 ∉ u := by
        intro hmem
        exact h42 (by rw [hms]; exact List.mem_append_left _ hmem)
      have hv42 : 42 ∉ v := hls.no_star hu42
      rw [hsp] at h1
      obtain ⟨u₁, t₁, ht, hls₁, htg₁⟩ := globMatch_split hv42 h1
      have hlen : u.length = u₁.length := by rw [hls.length_eq, hls₁.length_eq]
      obtain ⟨hu, htt⟩ := List.append_inj (hms.symm.trans ht) hlen
      rw [← htt, globMatch_nil] at htg₁
      simp at htg₁
    · exact h1
  | case8 _c _ns' fst =>
    intro hyp
    obtain ⟨h42, ⟨u, v, hms, hsp, hls⟩, hg⟩ := hyp
    simp at hms
  | case9 _c _ns' =>
    intro hyp
    obtain ⟨h42, hg⟩ := hyp
    rw [globMatch_nil] at hg
    simp at hg

theorem matchWildcard_eq_globMatch {name pattern : List Nat} (h : 42 ∉ name) :
    matchWildcard name pattern = globMatch name pattern := by
  cases hg : globMatch name pattern with
  | true => exact mwLoop_complete name pattern none ⟨h, hg⟩
  | false =>
    cases hm : matchWildcard name pattern with
    | false => rfl
    | true =>
      have hs : globMatch name pattern = true := mwLoop_sound name pattern none hm
      rw [hg] at hs
      exact absurd hs (by simp)

theorem globMatch_star_singleton (ns : List Nat) : globMatch ns [42] = true := by
  induction ns with
  | nil =>
    rw [globMatch_star_nil, globMatch_nil]
    rfl
  | cons c ns ih =>
    rw [globMatch_star_cons]
    simp [ih]

theorem globMatch_all_star {ps : List Nat} (hps : ∀ q ∈ ps, q = 42) (hne : ps ≠ []) :
    ∀ ns, globMatch ns ps = true := by
  induction ps with
  | nil => exact absurd rfl hne
  | cons q ps' ih =>
    intro ns
    have hq : q = 42 := hps q (by simp)
    subst hq
    rcases eq_or_ne ps' [] with rfl | hne'
    · exact globMatch_star_singleton ns
    · exact globMatch_star_intro (ih (fun q hq => hps q (List.mem_cons_of_mem _ hq)) hne' ns)

theorem matchWildcard_nil_name (ps : List Nat) : matchWildcard [] ps = skipStars ps :=
  mwLoop_nil ps none

theorem matchWildcard_nil_pattern (ns : List Nat) : matchWildcard ns [] = ns.isEmpty := by
  cases ns with
  | nil =>
    rw [matchWildcard, mwLoop_nil]
    rfl
  | cons c ns' =>
    rw [matchWildcard, mwLoop_cons_nilp]
    rfl

theorem skipStars_iff (ps : List Nat) : skipStars ps = true ↔ ∀ q ∈ ps, q = 42 := by
  induction ps with
  | nil => simp [skipStars]
  | cons q ps ih =>
    rw [skipStars]
    by_cases h : q = 42
    · simp [h, ih]
    · simp [h]

theorem matchWildcard_no_wildcards :
    ∀ (name pat : List Nat), 42 ∉ pat → 63 ∉ pat →
      (matchWildcard name pat = true ↔ name.map tolower = pat.map tolower) := by
  intro name
  induction name with
  | nil =>
    intro pat h42 h63
    rw [matchWildcard_nil_name]
    cases pat with
    | nil => simp [skipStars]
    | cons q ps =>
      have hq42 : q ≠ 42 := by simp only [List.mem_cons, not_or] at h42; exact fun h => h42.1 h.symm
      rw [skipStars, if_neg hq42]
      simp
  | cons c name ih =>
    intro pat h42 h63
    cases pat with
    | nil =>
      rw [matchWildcard_nil_pattern]
      simp
    | cons q ps =>
      simp only [List.mem_cons, not_or] at h42 h63
      have hq42 : q ≠ 42 := fun h => h42.1 h.symm
      have hq63 : q ≠ 63 := fun h => h63.1 h.symm
      rw [matchWildcard, mwLoop_cons_cons]
      by_cases hc : tolower q = tolower c
      · rw [if_pos (Or.inr hc)]
        have ihp := ih ps (fun h => h42.2 h) (fun h => h63.2 h)
        rw [matchWildcard] at ihp
        rw [ihp]
        simp [hc]
      · rw [if_neg (not_or.mpr ⟨hq63, hc⟩), if_neg hq42]
        constructor
        · intro h
          have h' : false = true := h
          exact absurd h' (by simp)
        · intro h
          simp only [List.map_cons, List.cons.injEq] at h
          exact absurd h.1.symm hc

/-- C7, counterexample: the claim that `matchWildcard` returns exactly the
result of anchored case-insensitive glob matching for every name and pattern
fails.  On name `*xa` and pattern `*a` the code returns false — the advance
branch (lines 28-34) fires because `tolower` of `*` equals itself, consuming
the pattern's `*` as a literal one-character match and never recording a
backtrack checkpoint — while anchored glob matching returns true (the `*`
absorbs `*x`). -/
theorem c7_counterexample :
    matchWildcard (str "*xa") (str "*a") = false ∧
      globMatch (str "*xa") (str "*a") = true := by
  constructor
  · simp [matchWildcard, mwLoop, skipStars, str, tolower]
  · simp [globMatch, str, tolower]

/-- C7, amended: for every name containing no `*` character, and every
pattern, `matchWildcard name pattern` returns exactly the result of anchored
case-insensitive glob matching (`*` matches any run of zero or more
characters, `?` matches exactly one character, every other pattern character
matches itself case-folded). -/
theorem c7_amended (name pattern : List Nat) (h : 42 ∉ name) :
    matchWildcard name pattern = globMatch name pattern :=
  matchWildcard_eq_globMatch h

/-- Witness for the amended C7 theorem at a concrete input. -/
theorem c7_amended_witness :
    42 ∉ str "report.TXT" ∧
      matchWildcard (str "report.TXT") (str "*.txt") =
        globMatch (str "report.TXT") (str "*.txt") := by
  have h : 42 ∉ str "report.TXT" := by decide
  exact ⟨h, c7_amended _ _ h⟩

/-- C8, counterexample: the edge case "a pattern consisting only of `*`
matches every name" fails on the code: the name `*a` is not matched by the
pattern `*`, because the pattern's only `*` is consumed literally against the
name's leading `*` (advance branch, lines 28-34) and the remaining `a` is
then unmatched with no checkpoint to backtrack to. -/
theorem c8_counterexample : matchWildcard (str "*a") (str "*") = false := by
  simp [matchWildcard, mwLoop, skipStars, str, tolower]

/-- C8, amended: `matchWildcard` returns the spec's listed values on all
seven concrete vectors; the empty pattern matches exactly the empty name; a
nonempty pattern consisting only of `*` matches every name that contains no
`*` character; and the empty name matches a pattern exactly when the pattern
consists only of `*` characters — in particular `?` requires a character at
its position. -/
theorem c8_amended :
    (matchWildcard (str "report.TXT") (str "*.txt") = true ∧
     matchWildcard (str "data_01.csv") (str "data_??.csv") = true ∧
     matchWildcard (str "data_1.csv") (str "data_??.csv") = false ∧
     matchWildcard (str "a") (str "?") = true ∧
     matchWildcard (str "") (str "*") = true ∧
     matchWildcard (str "") (str "?") = false ∧
     matchWildcard (str "FooBar") (str "foo*") = true) ∧
    (∀ ns : List Nat, matchWildcard ns [] = ns.isEmpty) ∧
    (∀ ps ns : List Nat, (∀ q ∈ ps, q = 42) → ps ≠ [] → 42 ∉ ns →
      matchWildcard ns ps = true) ∧
    (∀ ps : List Nat, matchWildcard [] ps = true ↔ ∀ q ∈ ps, q = 42) := by
  refine ⟨⟨?_, ?_, ?_, ?_, ?_, ?_, ?_⟩, ?_, ?_, ?_⟩
  · simp [matchWildcard, mwLoop, skipStars, str, tolower]
  · simp [matchWildcard, mwLoop, skipStars, str, tolower]
  · simp [matchWildcard, mwLoop, skipStars, str, tolower]
  · simp [matchWildcard, mwLoop, skipStars, str, tolower]
  · simp [matchWildcard, mwLoop, skipStars, str, tolower]
  · simp [matchWildcard, mwLoop, skipStars, str, tolower]
  · simp [matchWildcard, mwLoop, skipStars, str, tolower]
  · exact matchWildcard_nil_pattern
  · intro ps ns hall hne h42
    rw [matchWildcard_eq_globMatch h42]
    exact globMatch_all_star hall hne ns
  · intro ps
    rw [matchWildcard_nil_name]
    exact skipStars_iff ps

/-- C9, confirmed: for every pattern containing neither `*` nor `?`,
`matchWildcard name pattern` is true exactly when the name equals the pattern
case-insensitively (byte-wise, after case folding); moreover there is no
substring-containment fallback: the wildcard-free pattern `foo`, though
contained in the name `xfoox`, does not match it.  The worker applies
`matchWildcard` directly to every filename (line 174); no other matching path
exists in the program. -/
theorem c9_no_wildcards_exact_match :
    (∀ name pat : List Nat, 42 ∉ pat → 63 ∉ pat →
      (matchWildcard name pat = true ↔ name.map tolower = pat.map tolower)) ∧
    matchWildcard (str "xfoox") (str "foo") = false := by
  refine ⟨matchWildcard_no_wildcards, ?_⟩
  simp [matchWildcard, mwLoop, skipStars, str, tolower]

/-- C10, confirmed: with a third command-line argument present (argc ≥ 4),
an argument not parseable as an `int` — no digits at all, or a numeral whose
value is outside the `int` range, both of which make `std::stoi` throw —
takes `main` down the uncaught-exception path, not the usage path that
prints usage and returns 1; a value v that does parse is clamped below to
`max 1 v`, so values below 1 run with one worker instead of being
rejected. -/
theorem c10_thread_arg_parsing (argv : List (List Nat)) (hw : Nat) (a3 : List Nat)
    (hlen : 4 ≤ argv.length) (ha3 : argv.get? 3 = some a3) :
    (stoi a3 = none →
       parseCli argv hw = .stoiException ∧ parseCli argv hw ≠ .usage) ∧
    (∀ v : Int, stoi a3 = some v → parseCli argv hw = .run (max 1 v)) ∧
    (∀ v : Int, stoi a3 = some v → v < 1 → parseCli argv hw = .run 1) := by
  have hnot : ¬ argv.length < 3 := by omega
  have ha3' : argv[3]? = some a3 := by
    rw [← List.get?_eq_getElem?]
    exact ha3
  refine ⟨?_, ?_, ?_⟩
  · intro hn
    constructor
    · simp [parseCli, if_neg hnot, ha3', hn]
    · simp [parseCli, if_neg hnot, ha3', hn]
  · intro v hv
    simp [parseCli, if_neg hnot, ha3', hv]
  · intro v hv hlt
    have hmax : max (1 : Int) v = 1 := by omega
    simp [parseCli, if_neg hnot, ha3', hv, hmax]

/-- Witness for C10 at concrete inputs: a non-numeric third argument and an
out-of-int-range numeral both yield the exception outcome, and the value -5
is clamped to one worker. -/
theorem c10_witness :
    stoi (str "abc") = none ∧
      parseCli [str "FileFinder.exe", str "C:/data", str "*.txt", str "abc"] 8 =
        .stoiException ∧
      stoi (str "99999999999999999999") = none ∧
      parseCli [str "FileFinder.exe", str "C:/data", str "*.txt",
          str "99999999999999999999"] 8 = .stoiException ∧
      stoi (str "-5") = some (-5) ∧
      parseCli [str "FileFinder.exe", str "C:/data", str "*.txt", str "-5"] 8 =
        .run 1 := by
  refine ⟨by decide, ?_, by decide, ?_, by decide, ?_⟩
  · exact ((c10_thread_arg_parsing _ 8 (str "abc") (by decide) (by decide)).1
      (by decide)).1
  · exact ((c10_thread_arg_parsing _ 8 (str "99999999999999999999") (by decide)
      (by decide)).1 (by decide)).1
  · exact (c10_thread_arg_parsing _ 8 (str "-5") (by decide) (by decide)).2.2
      (-5) (by decide) (by decide)

/-- C5, counterexample: a symbolic link whose target is a directory is not
treated as a leaf.  `entry.is_directory()` follows links, so the first
branch (line 168) fires: the pending counter is incremented and the link is
pushed as a new directory task; its name is never matched. -/
theorem c5_counterexample :
    classifyEntry ⟨true, false, true, str "link-to-dir"⟩ = .enqueueDir ∧
      classifyEntry ⟨true, false, true, str "link-to-dir"⟩ ≠ .matchLeaf := by
  decide

/-- C5, amended: a symbolic link whose resolved target is not a directory
(file target or dangling) is treated as a leaf and its name is matched
against the pattern; but any entry whose resolved target is a directory —
symbolic link or not — is enqueued as a new directory task.  Only the
resolved target's type decides the branch. -/
theorem c5_amended (e : DirEntry) :
    (e.isSymlink = true → e.targetIsDir = false → classifyEntry e = .matchLeaf) ∧
    (e.targetIsDir = true → classifyEntry e = .enqueueDir) := by
  constructor
  · intro hs hd
    simp [classifyEntry, hd, hs]
  · intro hd
    simp [classifyEntry, hd]

/-- Witness for the amended C5 theorem: a dangling symlink is matched as a
leaf, and a plain subdirectory is enqueued. -/
theorem c5_amended_witness :
    classifyEntry ⟨false, false, true, str "dangling-link"⟩ = .matchLeaf ∧
      classifyEntry ⟨true, false, false, str "subdir"⟩ = .enqueueDir :=
  ⟨(c5_amended _).1 rfl rfl, (c5_amended _).2 rfl⟩

/-- C4, counterexample: with the stop flag set and a task still queued,
`pop_or_wait` does not return Empty — lines 93-97 test only queue emptiness,
so the front task is popped and returned. -/
theorem c4_counterexample :
    waitPred [Tree.node []] 1 true = true ∧
      popDecision [Tree.node []] 1 true = some (Tree.node [], []) :=
  ⟨rfl, rfl⟩

/-- C4, amended: when the stop flag is set the wait predicate is satisfied,
so no `pop_or_wait` call blocks once it re-evaluates; but such a call
returns Empty only when the queue is empty — while tasks remain, each call
returns the front task, so the queue is drained rather than abandoned. -/
theorem c4_amended (q : List Tree) (pending : Int) :
    waitPred q pending true = true ∧
      (popDecision q pending true = none ↔ q = []) := by
  constructor
  · simp [waitPred]
  · cases q <;> simp [popDecision]

theorem get?_set_self {α : Type} (l : List α) (i : Nat) (x : α) (h : i < l.length) :
    (l.set i x).get? i = some x := by
  induction l generalizing i with
  | nil => simp at h
  | cons a l ih =>
    cases i with
    | zero => rfl
    | succ i =>
      show (l.set i x).get? i = some x
      exact ih i (by simpa using h)

theorem mem_set_self {α : Type} (l : List α) (i : Nat) (x : α) (h : i < l.length) :
    x ∈ l.set i x :=
  List.get?_mem (get?_set_self l i x h)

theorem sumMap_set {α : Type} (f : α → Nat) (l : List α) (i : Nat) (w : α)
    (h : l.get? i = some w) (x : α) :
    ((l.set i x).map f).sum + f w = (l.map f).sum + f x := by
  induction l generalizing i with
  | nil => simp at h
  | cons a l ih =>
    cases i with
    | zero =>
      injection h with h
      subst h
      simp only [List.set, List.map_cons, List.sum_cons]
      omega
    | succ i =>
      have h' : l.get? i = some w := h
      have := ih i h'
      simp only [List.set, List.map_cons, List.sum_cons]
      omega

theorem sumMap_wakeAll (f : WStatus → Nat) (hf : f .waiting = f .idle)
    (l : List WStatus) : ((wakeAll l).map f).sum = (l.map f).sum := by
  rw [wakeAll, List.map_map]
  refine congrArg List.sum ?_
  apply List.map_congr_left
  intro a _
  cases a <;> simp [Function.comp, hf]

theorem walkInv_init (n : Nat) (root : Tree) : WalkInv (initState n root) := by
  refine ⟨?_, ?_, ?_, rfl, ?_⟩
  · simp [initState, debtSum, taskDebt, List.map_replicate, List.sum_replicate]
  · simp [initState]
  · simp [initState, holdSum, holdCount, List.map_replicate, List.sum_replicate]
  · rintro ⟨hne, hall⟩
    exfalso
    cases n with
    | zero => exact hne rfl
    | succ n =>
      have hmem : WStatus.idle ∈ (initState (n + 1) root).workers := by
        simp [initState, List.mem_replicate]
      exact absurd (hall _ hmem) (by simp)

theorem walkInv_step {s s' : WalkState} (h : WalkInv s) (hs : Step s s') :
    WalkInv s' := by
  obtain ⟨h1, h2, h3, h4, h5⟩ := h
  cases hs with
  | take i t rest hw hm hq =>
    obtain ⟨hi, -⟩ := List.get?_eq_some.mp hw
    have hd := sumMap_set taskDebt s.workers i _ hw (.expanding t.children)
    have hh := sumMap_set holdCount s.workers i _ hw (.expanding t.children)
    simp only [taskDebt, holdCount] at hd hh
    have hql : s.queue.length = rest.length + 1 := by rw [hq]; rfl
    refine ⟨?_, ?_, ?_, h4, ?_⟩
    · dsimp only [debtSum] at h1 ⊢
      omega
    · dsimp only at h2 ⊢
      omega
    · dsimp only [holdSum] at h3 ⊢
      omega
    · rintro ⟨hne, hall⟩
      exact absurd (hall _ (mem_set_self s.workers i _ hi)) (by simp)
  | popEmpty i hw hm hq hp =>
    obtain ⟨hi, -⟩ := List.get?_eq_some.mp hw
    have hd := sumMap_set taskDebt s.workers i _ hw .gotNone
    have hh := sumMap_set holdCount s.workers i _ hw .gotNone
    simp only [taskDebt, holdCount] at hd hh
    refine ⟨?_, ?_, ?_, h4, ?_⟩
    · dsimp only [debtSum] at h1 ⊢
      omega
    · dsimp only at h2 ⊢
      omega
    · dsimp only [holdSum] at h3 ⊢
      omega
    · rintro ⟨hne, hall⟩
      exact absurd (hall _ (mem_set_self s.workers i _ hi)) (by simp)
  | predFalse i hw hm hq hst hp =>
    obtain ⟨hi, -⟩ := List.get?_eq_some.mp hw
    have hd := sumMap_set taskDebt s.workers i _ hw .preblock
    have hh := sumMap_set holdCount s.workers i _ hw .preblock
    simp only [taskDebt, holdCount] at hd hh
    refine ⟨?_, ?_, ?_, h4, ?_⟩
    · dsimp only [debtSum] at h1 ⊢
      omega
    · dsimp only at h2 ⊢
      omega
    · dsimp only [holdSum] at h3 ⊢
      omega
    · rintro ⟨hne, hall⟩
      exact absurd (hall _ (mem_set_self s.workers i _ hi)) (by simp)
  | block i hw =>
    obtain ⟨hi, -⟩ := List.get?_eq_some.mp hw
    have hd := sumMap_set taskDebt s.workers i _ hw .waiting
    have hh := sumMap_set holdCount s.workers i _ hw .waiting
    simp only [taskDebt, holdCount] at hd hh
    refine ⟨?_, ?_, ?_, h4, ?_⟩
    · dsimp only [debtSum] at h1 ⊢
      omega
    · dsimp only at h2 ⊢
      omega
    · dsimp only [holdSum] at h3 ⊢
      omega
    · rintro ⟨hne, hall⟩
      exact absurd (hall _ (mem_set_self s.workers i _ hi)) (by simp)
  | exitLoop i hw hp =>
    obtain ⟨hi, -⟩ := List.get?_eq_some.mp hw
    have hd := sumMap_set taskDebt s.workers i _ hw .exited
    have hh := sumMap_set holdCount s.workers i _ hw .exited
    simp only [taskDebt, holdCount] at hd hh
    refine ⟨?_, ?_, ?_, h4, ?_⟩
    · dsimp only [debtSum] at h1 ⊢
      omega
    · dsimp only at h2 ⊢
      omega
    · dsimp only [holdSum] at h3 ⊢
      omega
    · intro _
      exact hp
  | reloop i hw hp =>
    obtain ⟨hi, -⟩ := List.get?_eq_some.mp hw
    have hd := sumMap_set taskDebt s.workers i _ hw .idle
    have hh := sumMap_set holdCount s.workers i _ hw .idle
    simp only [taskDebt, holdCount] at hd hh
    refine ⟨?_, ?_, ?_, h4, ?_⟩
    · dsimp only [debtSum] at h1 ⊢
      omega
    · dsimp only at h2 ⊢
      omega
    · dsimp only [holdSum] at h3 ⊢
      omega
    · rintro ⟨hne, hall⟩
      exact absurd (hall _ (mem_set_self s.workers i _ hi)) (by simp)
  | inc i t todo hw =>
    obtain ⟨hi, -⟩ := List.get?_eq_some.mp hw
    have hd := sumMap_set taskDebt s.workers i _ hw (.midPush t todo)
    have hh := sumMap_set holdCount s.workers i _ hw (.midPush t todo)
    simp only [taskDebt, holdCount] at hd hh
    refine ⟨?_, ?_, ?_, h4, ?_⟩
    · dsimp only [debtSum] at h1 ⊢
      omega
    · dsimp only at h2 ⊢
      omega
    · dsimp only [holdSum] at h3 ⊢
      omega
    · rintro ⟨hne, hall⟩
      exact absurd (hall _ (mem_set_self s.workers i _ hi)) (by simp)
  | pushWake i j t todo hw hm hwj =>
    obtain ⟨hi, -⟩ := List.get?_eq_some.mp hw
    have hji : j ≠ i := by
      intro e
      subst e
      rw [hw] at hwj
      simp at hwj
    have hij : i ≠ j := fun e => hji e.symm
    have hj1 : (s.workers.set i (.expanding todo)).get? j = some .waiting := by
      rw [List.get?_set_ne _ _ hij]
      exact hwj
    have hd1 := sumMap_set taskDebt s.workers i _ hw (.expanding todo)
    have hd2 := sumMap_set taskDebt (s.workers.set i (.expanding todo)) j _ hj1 .idle
    have hh1 := sumMap_set holdCount s.workers i _ hw (.expanding todo)
    have hh2 := sumMap_set holdCount (s.workers.set i (.expanding todo)) j _ hj1 .idle
    simp only [taskDebt, holdCount] at hd1 hd2 hh1 hh2
    have hql : (s.queue ++ [t]).length = s.queue.length + 1 := by simp
    refine ⟨?_, ?_, ?_, h4, ?_⟩
    · dsimp only [debtSum] at h1 ⊢
      omega
    · dsimp only at h2 ⊢
      omega
    · dsimp only [holdSum] at h3 ⊢
      omega
    · rintro ⟨hne, hall⟩
      have hg : ((s.workers.set i (.expanding todo)).set j .idle).get? i =
          some (.expanding todo) := by
        rw [List.get?_set_ne _ _ hji]
        exact get?_set_self s.workers i _ hi
      exact absurd (hall _ (List.get?_mem hg)) (by simp)
  | pushQuiet i t todo hw hm hnw =>
    obtain ⟨hi, -⟩ := List.get?_eq_some.mp hw
    have hd := sumMap_set taskDebt s.workers i _ hw (.expanding todo)
    have hh := sumMap_set holdCount s.workers i _ hw (.expanding todo)
    simp only [taskDebt, holdCount] at hd hh
    have hql : (s.queue ++ [t]).length = s.queue.length + 1 := by simp
    refine ⟨?_, ?_, ?_, h4, ?_⟩
    · dsimp only [debtSum] at h1 ⊢
      omega
    · dsimp only at h2 ⊢
      omega
    · dsimp only [holdSum] at h3 ⊢
      omega
    · rintro ⟨hne, hall⟩
      exact absurd (hall _ (mem_set_self s.workers i _ hi)) (by simp)
  | finish i todo hw =>
    obtain ⟨hi, -⟩ := List.get?_eq_some.mp hw
    have hd := sumMap_set taskDebt s.workers i _ hw .completing
    have hh := sumMap_set holdCount s.workers i _ hw .completing
    simp only [taskDebt, holdCount] at hd hh
    refine ⟨?_, ?_, ?_, h4, ?_⟩
    · dsimp only [debtSum] at h1 ⊢
      omega
    · dsimp only at h2 ⊢
      omega
    · dsimp only [holdSum] at h3 ⊢
      omega
    · rintro ⟨hne, hall⟩
      exact absurd (hall _ (mem_set_self s.workers i _ hi)) (by simp)
  | dropPending i hw =>
    obtain ⟨hi, -⟩ := List.get?_eq_some.mp hw
    have hxd : taskDebt (if s.pending - 1 = 0 then WStatus.notifying else .idle) = 0 := by
      split <;> rfl
    have hxh : holdCount (if s.pending - 1 = 0 then WStatus.notifying else .idle) = 0 := by
      split <;> rfl
    have hd := sumMap_set taskDebt s.workers i _ hw
      (if s.pending - 1 = 0 then .notifying else .idle)
    have hh := sumMap_set holdCount s.workers i _ hw
      (if s.pending - 1 = 0 then .notifying else .idle)
    rw [hxd] at hd
    rw [hxh] at hh
    simp only [taskDebt, holdCount] at hd hh
    refine ⟨?_, ?_, ?_, h4, ?_⟩
    · dsimp only [debtSum] at h1 ⊢
      omega
    · dsimp only at h2 ⊢
      omega
    · dsimp only [holdSum] at h3 ⊢
      omega
    · rintro ⟨hne, hall⟩
      refine absurd (hall _ (mem_set_self s.workers i _ hi)) ?_
      split <;> simp
  | notifyAll i hw =>
    obtain ⟨hi, -⟩ := List.get?_eq_some.mp hw
    have hd1 := sumMap_set taskDebt s.workers i _ hw .idle
    have hh1 := sumMap_set holdCount s.workers i _ hw .idle
    simp only [taskDebt, holdCount] at hd1 hh1
    have hd2 := sumMap_wakeAll taskDebt rfl (s.workers.set i .idle)
    have hh2 := sumMap_wakeAll holdCount rfl (s.workers.set i .idle)
    refine ⟨?_, ?_, ?_, h4, ?_⟩
    · dsimp only [debtSum] at h1 ⊢
      omega
    · dsimp only at h2 ⊢
      omega
    · dsimp only [holdSum] at h3 ⊢
      omega
    · rintro ⟨hne, hall⟩
      have hg : WStatus.idle ∈ wakeAll (s.workers.set i .idle) :=
        List.mem_map_of_mem _ (mem_set_self s.workers i .idle hi)
      exact absurd (hall _ hg) (by simp)

theorem walk_inv {n : Nat} {root : Tree} {s : WalkState} (h : Reachable n root s) :
    WalkInv s := by
  induction h with
  | refl => exact walkInv_init n root
  | tail hst hstep ih => exact walkInv_step ih hstep

theorem reach_c1s2 : Reachable 1 c1Root c1s2 := by
  have hmf : MutexFree (initState 1 c1Root) := by
    intro hmem
    simp [initState, List.mem_replicate] at hmem
  have s1 : Step (initState 1 c1Root) c1s1 :=
    Step.take (initState 1 c1Root) 0 (Tree.node [Tree.node []]) [] rfl hmf rfl
  have s2 : Step c1s1 c1s2 :=
    Step.inc c1s1 0 (Tree.node []) [] rfl
  exact (Relation.ReflTransGen.refl.tail s1).tail s2

theorem reach_c3s3 : Reachable 2 c3Root c3s3 := by
  have hmf0 : MutexFree (initState 2 c3Root) := by
    intro hmem
    simp [initState, List.mem_replicate] at hmem
  have s1 : Step (initState 2 c3Root) c3s1 :=
    Step.take (initState 2 c3Root) 0 (Tree.node []) [] rfl hmf0 rfl
  have hmf1 : MutexFree c3s1 := by
    intro hmem
    simp [c3s1, MutexFree] at hmem
  have s2 : Step c3s1 c3s2 :=
    Step.predFalse c3s1 1 rfl hmf1 rfl rfl (by decide)
  have s3 : Step c3s2 c3s3 :=
    Step.finish c3s2 0 [] rfl
  exact ((Relation.ReflTransGen.refl.tail s1).tail s2).tail s3

theorem reach_c3s8 : Reachable 2 c3Root c3s8 := by
  have s4 : Step c3s3 c3s4 := Step.dropPending c3s3 0 rfl
  have s5 : Step c3s4 c3s5 := Step.notifyAll c3s4 0 rfl
  have s6 : Step c3s5 c3s6 := Step.block c3s5 1 rfl
  have hmf6 : MutexFree c3s6 := by
    intro hmem
    simp [c3s6, MutexFree] at hmem
  have s7 : Step c3s6 c3s7 := Step.popEmpty c3s6 0 rfl hmf6 rfl (Or.inr rfl)
  have s8 : Step c3s7 c3s8 := Step.exitLoop c3s7 0 rfl rfl
  exact ((((reach_c3s3.tail s4).tail s5).tail s6).tail s7).tail s8

/-- C1, counterexample: the claimed equality "pending = (tasks in queue) +
(tasks currently being expanded by a worker)" fails at a reachable state.
With one worker and a root holding one subdirectory, after the worker pops
the seed and executes the fetch_add for the child (line 169) but not yet the
push (line 170) — the two are separate operations with no common lock — the
pending counter is 2 while the queue is empty and exactly one task is being
expanded. -/
theorem c1_counterexample :
    Reachable 1 c1Root c1s2 ∧
      c1s2.pending = 2 ∧
      c1s2.queue = [] ∧
      (c1s2.queue.length : Int) + (holdSum c1s2 : Int) = 1 := by
  refine ⟨reach_c1s2, rfl, rfl, by decide⟩

/-- C1, amended: at every reachable state, the pending counter equals the
number of queued tasks plus the pending-count debt of the workers — one unit
for each dequeued task not yet decremented for, plus one extra unit for each
worker sitting between a child's fetch_add (line 169) and the corresponding
push (line 170).  Consequently the counter starts at 1 with the seed, never
becomes negative, and is 0 exactly when the queue is empty and no worker
owes anything — the unique global-termination condition. -/
theorem c1_amended (n : Nat) (root : Tree) (s : WalkState)
    (h : Reachable n root s) :
    s.pending = (s.queue.length : Int) + (debtSum s : Int) ∧
    0 ≤ s.pending ∧
    (initState n root).pending = 1 ∧
    (s.pending = 0 ↔ s.queue = [] ∧ ∀ w ∈ s.workers, taskDebt w = 0) := by
  obtain ⟨h1, h2, h3, h4, h5⟩ := walk_inv h
  refine ⟨h1, by omega, rfl, ?_⟩
  constructor
  · intro hp
    rw [hp] at h1
    have hq : s.queue.length = 0 ∧ debtSum s = 0 := by omega
    refine ⟨List.length_eq_zero.mp hq.1, ?_⟩
    intro w hw
    have hsum : (s.workers.map taskDebt).sum = 0 := hq.2
    exact List.sum_eq_zero_iff.mp hsum _ (List.mem_map_of_mem _ hw)
  · rintro ⟨hq, hall⟩
    have hsum : debtSum s = 0 := by
      refine List.sum_eq_zero_iff.mpr ?_
      intro x hx
      obtain ⟨w, hw, rfl⟩ := List.mem_map.mp hx
      exact hall w hw
    rw [h1, hq, hsum]
    rfl

/-- Witness for the amended C1 theorem, at the initial state of a one-worker
walk. -/
theorem c1_amended_witness :
    (initState 1 c1Root).pending =
        ((initState 1 c1Root).queue.length : Int) +
          (debtSum (initState 1 c1Root) : Int) ∧
      0 ≤ (initState 1 c1Root).pending ∧
      (initState 1 c1Root).pending = 1 ∧
      ((initState 1 c1Root).pending = 0 ↔
        (initState 1 c1Root).queue = [] ∧
          ∀ w ∈ (initState 1 c1Root).workers, taskDebt w = 0) :=
  c1_amended 1 c1Root _ Relation.ReflTransGen.refl

/-- C2, confirmed: in every execution, each dequeued task is decremented for
exactly once — the count of dequeues always equals the count of complete-one
decrements plus the tasks currently held by a worker, whether the expansion
runs to completion or is cut short by any exception (the `finish` step covers
both) — and the count of pushes equals the dequeues plus the queued tasks;
hence once every worker has exited, decrements and pushes (seed included)
agree exactly. -/
theorem c2_complete_one_pairing (n : Nat) (root : Tree) (s : WalkState)
    (h : Reachable n root s) :
    s.takes = s.decs + holdSum s ∧
    s.pushes = s.takes + s.queue.length ∧
    (s.workers ≠ [] → (∀ w ∈ s.workers, w = .exited) → s.decs = s.pushes) := by
  obtain ⟨h1, h2, h3, h4, h5⟩ := walk_inv h
  refine ⟨h3, h2, ?_⟩
  intro hne hall
  have hp0 : s.pending = 0 := h5 ⟨hne, hall⟩
  have hhold : holdSum s = 0 := by
    refine List.sum_eq_zero_iff.mpr ?_
    intro x hx
    obtain ⟨w, hw, rfl⟩ := List.mem_map.mp hx
    rw [hall w hw]
    rfl
  have hdebt : debtSum s = 0 := by
    refine List.sum_eq_zero_iff.mpr ?_
    intro x hx
    obtain ⟨w, hw, rfl⟩ := List.mem_map.mp hx
    rw [hall w hw]
    rfl
  have hq : s.queue.length = 0 := by
    rw [hp0, hdebt] at h1
    omega
  omega

/-- Witness for the C2 theorem, at the initial state of a two-worker walk. -/
theorem c2_witness :
    (initState 2 c3Root).takes =
        (initState 2 c3Root).decs + holdSum (initState 2 c3Root) ∧
      (initState 2 c3Root).pushes =
        (initState 2 c3Root).takes + (initState 2 c3Root).queue.length ∧
      ((initState 2 c3Root).workers ≠ [] →
        (∀ w ∈ (initState 2 c3Root).workers, w = .exited) →
          (initState 2 c3Root).decs = (initState 2 c3Root).pushes) :=
  c2_complete_one_pairing 2 c3Root _ Relation.ReflTransGen.refl

/-- C3, refuted by the code: the walk does not terminate on every finite
tree for every worker count.  With two workers and a single empty directory,
the run in which worker 1 evaluates the wait predicate (queue empty, pending
1) just before worker 0's lock-free fetch_sub and notify_all reaches a state
where worker 0 has exited, worker 1 is blocked on the condition variable,
and no step whatsoever is enabled: the only notify_all of the run fired
inside worker 1's predicate window, before it became a waiter, and C++
condition variables guarantee neither delivery to not-yet-blocked threads
nor spurious wakeups.  The join in main (line 217) then never returns. -/
theorem c3_deadlock :
    Reachable 2 c3Root c3s8 ∧
      (∀ s', ¬ Step c3s8 s') ∧
      c3s8.workers.get? 1 = some .waiting ∧
      c3s8.pending = 0 := by
  refine ⟨reach_c3s8, ?_, rfl, rfl⟩
  intro s' hstep
  have hws : ∀ (i : Nat) (w : WStatus), c3s8.workers.get? i = some w →
      w = .exited ∨ w = .waiting := by
    intro i w h
    match i with
    | 0 =>
      injection h with h
      exact Or.inl h.symm
    | 1 =>
      injection h with h
      exact Or.inr h.symm
    | (n + 2) => exact Option.noConfusion h
  cases hstep with
  | take i t rest hw hm hq => rcases hws i _ hw with h | h <;> simp at h
  | popEmpty i hw hm hq hp => rcases hws i _ hw with h | h <;> simp at h
  | predFalse i hw hm hq hst hp => rcases hws i _ hw with h | h <;> simp at h
  | block i hw => rcases hws i _ hw with h | h <;> simp at h
  | exitLoop i hw hp => rcases hws i _ hw with h | h <;> simp at h
  | reloop i hw hp => rcases hws i _ hw with h | h <;> simp at h
  | inc i t todo hw => rcases hws i _ hw with h | h <;> simp at h
  | pushWake i j t todo hw hm hwj => rcases hws i _ hw with h | h <;> simp at h
  | pushQuiet i t todo hw hm hnw => rcases hws i _ hw with h | h <;> simp at h
  | finish i todo hw => rcases hws i _ hw with h | h <;> simp at h
  | dropPending i hw => rcases hws i _ hw with h | h <;> simp at h
  | notifyAll i hw => rcases hws i _ hw with h | h <;> simp at h

/-- C6, refuted by the code: the pending counter is not mutated under the
queue's exclusion domain.  At the reachable state c3s3, worker 1 holds the
queue mutex (it is inside the wait predicate window), yet worker 0's
fetch_sub at line 196 — a lock-free atomic — fires and changes the pending
counter.  This unserialized mutation is exactly what makes the missed-wakeup
deadlock of the C3 trace possible. -/
theorem c6_pending_outside_mutex :
    Reachable 2 c3Root c3s3 ∧
      Step c3s3 c3s4 ∧
      c3s3.workers.get? 1 = some .preblock ∧
      c3s4.pending ≠ c3s3.pending := by
  refine ⟨reach_c3s3, Step.dropPending c3s3 0 rfl, rfl, by decide⟩

end FileFinder
